import Mathlib

/-!
# Verification of the `linq` lazy-enumerator library

Shallow embedding of `src/include/linq.hpp`. Every C++ enumerator is a
stateful cursor exposing `operator*` (read current), `operator++` (advance)
and `operator bool` (has more). We model a cursor as a state type `σ`
together with pure functions `cur`, `adv`, `hasMore` acting on `σ`; each
adapter wraps a parent cursor's functions and its state, mirroring how the
C++ adapter holds a reference to its parent and mutates it in place.

The C++ library only ever runs over finite ranges (the spec excludes
infinite sequences); to express that finiteness, and to make the draining
sinks total functions, every cursor carries a termination measure `size`
that strictly decreases on each advance from a non-exhausted state.

Where the claims speak about how many times an adapter advances its parent,
we instantiate the parent with `counted_range_enumerator`, a source cursor
instrumented with a ghost counter that counts every `operator++` call it
receives (including calls past the end of the range).
-/

namespace Linq

/-- The abstract `enumerator<T>` contract: current element, advance, and
exhaustion test over an explicit state type `σ`.  `size` and `size_adv`
express that the underlying range is finite: advancing a non-exhausted
cursor strictly decreases the measure. -/
structure Enumerator (σ T : Type) where
  cur : σ → T
  adv : σ → σ
  hasMore : σ → Bool
  size : σ → Nat
  size_adv : ∀ s, hasMore s = true → size (adv s) < size s

/-- `range_enumerator`: the source cursor over a linear range.  Its state is
the remaining list of elements between `begin_` and `end_`; `operator bool`
is `begin_ != end_` (the remaining list is nonempty), `operator++` moves
`begin_` forward by one (take the tail; an increment past the end, undefined
behavior in C++, is modelled as a no-op), `operator*` dereferences `begin_`
(the head of the remaining list). -/
def range_enumerator (T : Type) [Inhabited T] : Enumerator (List T) T where
  cur := fun l => l.headI
  adv := fun l => l.tail
  hasMore := fun l => !l.isEmpty
  size := fun l => l.length
  size_adv := by
    intro l h
    cases l with
    | nil => simp at h
    | cons a as => simp [List.length_cons]

/-- The source cursor instrumented with a ghost counter: the second state
component counts how many `operator++` calls the cursor has received,
including calls arriving when it is already exhausted. -/
def counted_range_enumerator (T : Type) [Inhabited T] :
    Enumerator (List T × Nat) T where
  cur := fun s => s.1.headI
  adv := fun s => (s.1.tail, s.2 + 1)
  hasMore := fun s => !s.1.isEmpty
  size := fun s => s.1.length
  size_adv := by
    intro s h
    obtain ⟨l, n⟩ := s
    cases l with
    | nil => simp at h
    | cons a as => simp [List.length_cons]

/-- `drop_enumerator`'s constructor body: `for (int i = 0; i < count; ++i)
++parent_;` — it advances the parent exactly `count` times when `count > 0`
and zero times otherwise, with no exhaustion check. -/
def drop_init (c : Enumerator σ T) (count : Int) (s : σ) : σ :=
  (c.adv)^[count.toNat] s

/-- `drop_enumerator` after construction: every operation forwards verbatim
to the parent; the adapter has no local state. -/
def drop_enumerator (c : Enumerator σ T) : Enumerator σ T where
  cur := c.cur
  adv := c.adv
  hasMore := c.hasMore
  size := c.size
  size_adv := c.size_adv

/-- `take_enumerator`: local state is the remaining count `last_ : int`
paired with the parent state.  `operator bool` is `(bool) parent_ && last_ >
0`; `operator++` decrements `last_` and forwards the advance to the parent
only if `last_` is still positive after the decrement. -/
def take_enumerator (c : Enumerator σ T) : Enumerator (σ × Int) T where
  cur := fun s => c.cur s.1
  adv := fun s => (if s.2 - 1 > 0 then c.adv s.1 else s.1, s.2 - 1)
  hasMore := fun s => c.hasMore s.1 && decide (s.2 > 0)
  size := fun s => c.size s.1 + s.2.toNat
  size_adv := by
    intro s h
    obtain ⟨ps, l⟩ := s
    simp only [Bool.and_eq_true, decide_eq_true_eq] at h
    dsimp only
    by_cases hc : l - 1 > 0
    · rw [if_pos hc]
      have := c.size_adv ps h.1
      omega
    · rw [if_neg hc]
      omega

/-- `select_enumerator`: holds a transformation function; `operator*`
applies it freshly to the parent's current element, `operator++` and
`operator bool` forward unchanged. -/
def select_enumerator (c : Enumerator σ T) (f : T → U) : Enumerator σ U where
  cur := fun s => f (c.cur s)
  adv := c.adv
  hasMore := c.hasMore
  size := c.size
  size_adv := c.size_adv

/-- `until_enumerator`: `operator bool` is `(bool) parent_ &&
!predicate_(*parent_)`; `operator++` forwards to the parent only when
`(bool) *this` holds beforehand. -/
def until_enumerator (c : Enumerator σ T) (p : T → Bool) : Enumerator σ T where
  cur := c.cur
  adv := fun s => if c.hasMore s && !p (c.cur s) then c.adv s else s
  hasMore := fun s => c.hasMore s && !p (c.cur s)
  size := c.size
  size_adv := by
    intro s h
    dsimp only at h ⊢
    rw [if_pos h]
    exact c.size_adv s (by simp_all)

/-- The catch-up loop shared by `where_enumerator`'s constructor and
`operator++`: `while ((bool) *this && !predicate_(*parent_)) ++parent_;`
(recall `where_enumerator::operator bool` just forwards to the parent). -/
def skip_fails (c : Enumerator σ T) (p : T → Bool) (s : σ) : σ :=
  if h : c.hasMore s && !p (c.cur s) then skip_fails c p (c.adv s) else s
termination_by c.size s
decreasing_by exact c.size_adv s (by simp_all)

theorem skip_fails_size_le (c : Enumerator σ T) (p : T → Bool) (s : σ) :
    c.size (skip_fails c p s) ≤ c.size s := by
  rw [skip_fails]
  split
  · have h1 := c.size_adv s (by simp_all)
    have h2 := skip_fails_size_le c p (c.adv s)
    omega
  · exact Nat.le_refl _
termination_by c.size s
decreasing_by exact c.size_adv s (by simp_all)

/-- `where_enumerator` after construction: `operator bool` forwards to the
parent; `operator*` forwards to the parent; `operator++` performs one raw
parent advance and then runs the catch-up loop. -/
def where_enumerator (c : Enumerator σ T) (p : T → Bool) : Enumerator σ T where
  cur := c.cur
  adv := fun s => skip_fails c p (c.adv s)
  hasMore := c.hasMore
  size := c.size
  size_adv := by
    intro s h
    dsimp only
    have h1 := c.size_adv s h
    have h2 := skip_fails_size_le c p (c.adv s)
    omega

/-- `where_enumerator`'s constructor body: `if ((bool) parent_ &&
!predicate_(*parent_)) ++(*this);` — an eager catch-up to the first matching
element (or to exhaustion) at construction time. -/
def where_init (c : Enumerator σ T) (p : T → Bool) (s : σ) : σ :=
  if c.hasMore s && !p (c.cur s) then (where_enumerator c p).adv s else s

/-- The filter invariant, as a boolean: whenever the parent still has more
elements, the parent's current element satisfies the keep-predicate. -/
def where_invB (c : Enumerator σ T) (p : T → Bool) (s : σ) : Bool :=
  !c.hasMore s || p (c.cur s)

/-- `enumerator<T>::to_vector`: `while (*this) { result.push_back(**this);
++(*this); }` — drain the cursor into an owned list, in traversal order. -/
def to_vector (c : Enumerator σ T) (s : σ) : List T :=
  if h : c.hasMore s then c.cur s :: to_vector c (c.adv s) else []
termination_by c.size s
decreasing_by exact c.size_adv s h

/-- The cursor state left behind by a sink's drain loop: advance while
`has_more` holds. -/
def drain_end (c : Enumerator σ T) (s : σ) : σ :=
  if h : c.hasMore s then drain_end c (c.adv s) else s
termination_by c.size s
decreasing_by exact c.size_adv s h

/-- `enumerator<T>::copy_to(it)`: `while ((bool) *this) { *it = **this;
++(*this); ++it; }` — the output iterator is modelled as a destination list
`dest` plus a write position `i`; `*it = x` writes `x` at position `i` of
`dest`, `++it` increments `i`. -/
def copy_to (c : Enumerator σ T) (s : σ) (dest : List T) (i : Nat) : List T :=
  if h : c.hasMore s then copy_to c (c.adv s) (dest.set i (c.cur s)) (i + 1)
  else dest
termination_by c.size s
decreasing_by exact c.size_adv s h

/-- Reference writer: write the elements of `xs`, one element per output
position in order, into `dest` starting at position `i`. -/
def write_list (xs : List T) (dest : List T) (i : Nat) : List T :=
  match xs with
  | [] => dest
  | x :: rest => write_list rest (dest.set i x) (i + 1)

/-! ## Unfolding lemmas for the well-founded recursions -/

theorem to_vector_pos (c : Enumerator σ T) (s : σ) (h : c.hasMore s = true) :
    to_vector c s = c.cur s :: to_vector c (c.adv s) := by
  rw [to_vector, dif_pos h]

theorem to_vector_neg (c : Enumerator σ T) (s : σ) (h : c.hasMore s = false) :
    to_vector c s = [] := by
  rw [to_vector, dif_neg (by simp [h])]

theorem drain_end_pos (c : Enumerator σ T) (s : σ) (h : c.hasMore s = true) :
    drain_end c s = drain_end c (c.adv s) := by
  rw [drain_end, dif_pos h]

theorem drain_end_neg (c : Enumerator σ T) (s : σ) (h : c.hasMore s = false) :
    drain_end c s = s := by
  rw [drain_end, dif_neg (by simp [h])]

theorem copy_to_pos (c : Enumerator σ T) (s : σ) (dest : List T) (i : Nat)
    (h : c.hasMore s = true) :
    copy_to c s dest i = copy_to c (c.adv s) (dest.set i (c.cur s)) (i + 1) := by
  rw [copy_to, dif_pos h]

theorem copy_to_neg (c : Enumerator σ T) (s : σ) (dest : List T) (i : Nat)
    (h : c.hasMore s = false) :
    copy_to c s dest i = dest := by
  rw [copy_to, dif_neg (by simp [h])]

theorem skip_fails_pos (c : Enumerator σ T) (p : T → Bool) (s : σ)
    (h : (c.hasMore s && !p (c.cur s)) = true) :
    skip_fails c p s = skip_fails c p (c.adv s) := by
  rw [skip_fails, dif_pos h]

theorem skip_fails_neg (c : Enumerator σ T) (p : T → Bool) (s : σ)
    (h : (c.hasMore s && !p (c.cur s)) = false) :
    skip_fails c p s = s := by
  rw [skip_fails, dif_neg (by simp [h])]

/-! ## Basic facts about the source cursor -/

theorem to_vector_range (T : Type) [Inhabited T] (l : List T) :
    to_vector (range_enumerator T) l = l := by
  induction l with
  | nil => exact to_vector_neg _ _ rfl
  | cons a as ih =>
      rw [to_vector_pos _ _ rfl]
      show a :: to_vector (range_enumerator T) as = a :: as
      rw [ih]

theorem iterate_tail_eq_drop (T : Type) (n : Nat) (l : List T) :
    List.tail^[n] l = l.drop n := by
  induction n generalizing l with
  | zero => rfl
  | succ k ih =>
      rw [Function.iterate_succ_apply, ih]
      cases l <;> simp

theorem counted_adv_iterate (T : Type) [Inhabited T] (n : Nat) (l : List T)
    (m : Nat) :
    ((counted_range_enumerator T).adv)^[n] (l, m) = (l.drop n, m + n) := by
  induction n generalizing l m with
  | zero => simp
  | succ k ih =>
      rw [Function.iterate_succ_apply]
      show ((counted_range_enumerator T).adv)^[k] (l.tail, m + 1) = _
      rw [ih]
      cases l <;> simp <;> omega

/-! ## Field-projection lemmas (all definitional) -/

theorem range_hasMore (T : Type) [Inhabited T] (l : List T) :
    (range_enumerator T).hasMore l = !l.isEmpty := rfl

theorem range_cur (T : Type) [Inhabited T] (l : List T) :
    (range_enumerator T).cur l = l.headI := rfl

theorem range_adv (T : Type) [Inhabited T] (l : List T) :
    (range_enumerator T).adv l = l.tail := rfl

theorem counted_hasMore (T : Type) [Inhabited T] (s : List T × Nat) :
    (counted_range_enumerator T).hasMore s = !s.1.isEmpty := rfl

theorem counted_cur (T : Type) [Inhabited T] (s : List T × Nat) :
    (counted_range_enumerator T).cur s = s.1.headI := rfl

theorem counted_adv (T : Type) [Inhabited T] (s : List T × Nat) :
    (counted_range_enumerator T).adv s = (s.1.tail, s.2 + 1) := rfl

theorem take_hasMore (c : Enumerator σ T) (s : σ) (l : Int) :
    (take_enumerator c).hasMore (s, l) = (c.hasMore s && decide (l > 0)) := rfl

theorem take_cur (c : Enumerator σ T) (s : σ) (l : Int) :
    (take_enumerator c).cur (s, l) = c.cur s := rfl

theorem take_adv (c : Enumerator σ T) (s : σ) (l : Int) :
    (take_enumerator c).adv (s, l) =
      (if l - 1 > 0 then c.adv s else s, l - 1) := rfl

theorem until_hasMore (c : Enumerator σ T) (p : T → Bool) (s : σ) :
    (until_enumerator c p).hasMore s = (c.hasMore s && !p (c.cur s)) := rfl

theorem until_cur (c : Enumerator σ T) (p : T → Bool) (s : σ) :
    (until_enumerator c p).cur s = c.cur s := rfl

theorem until_adv (c : Enumerator σ T) (p : T → Bool) (s : σ) :
    (until_enumerator c p).adv s =
      (if c.hasMore s && !p (c.cur s) then c.adv s else s) := rfl

theorem where_hasMore (c : Enumerator σ T) (p : T → Bool) (s : σ) :
    (where_enumerator c p).hasMore s = c.hasMore s := rfl

theorem where_cur (c : Enumerator σ T) (p : T → Bool) (s : σ) :
    (where_enumerator c p).cur s = c.cur s := rfl

theorem where_adv (c : Enumerator σ T) (p : T → Bool) (s : σ) :
    (where_enumerator c p).adv s = skip_fails c p (c.adv s) := rfl

theorem select_hasMore (c : Enumerator σ T) (f : T → U) (s : σ) :
    (select_enumerator c f).hasMore s = c.hasMore s := rfl

theorem select_cur (c : Enumerator σ T) (f : T → U) (s : σ) :
    (select_enumerator c f).cur s = f (c.cur s) := rfl

theorem select_adv (c : Enumerator σ T) (f : T → U) (s : σ) :
    (select_enumerator c f).adv s = c.adv s := rfl

/-! ## Collecting through the limit adapter -/

theorem to_vector_take_range (T : Type) [Inhabited T] (k : Int) (R : List T) :
    to_vector (take_enumerator (range_enumerator T)) (R, k) = R.take k.toNat := by
  induction R generalizing k with
  | nil =>
      rw [to_vector_neg _ _ (by simp [take_hasMore, range_hasMore])]
      simp
  | cons a as ih =>
      by_cases hk : k > 0
      · rw [to_vector_pos _ _ (by simp [take_hasMore, range_hasMore, hk])]
        rw [take_cur, range_cur, take_adv, range_adv]
        by_cases hk1 : k - 1 > 0
        · rw [if_pos hk1]
          show a :: to_vector (take_enumerator (range_enumerator T)) (as, k - 1)
              = (a :: as).take k.toNat
          rw [ih]
          have : k.toNat = (k - 1).toNat + 1 := by omega
          rw [this, List.take_succ_cons]
        · rw [if_neg hk1]
          rw [to_vector_neg _ _ (by simp [take_hasMore, range_hasMore]; omega)]
          have : k.toNat = 1 := by omega
          simp [this]
      · rw [to_vector_neg _ _ (by simp [take_hasMore, range_hasMore]; omega)]
        have : k.toNat = 0 := by omega
        simp [this]

/-! ## Skip adapter: construction advance count and collected output -/

theorem drop_init_counted (T : Type) [Inhabited T] (k : Int) (R : List T)
    (n : Nat) :
    drop_init (counted_range_enumerator T) k (R, n) = (R.drop k.toNat, n + k.toNat) := by
  rw [drop_init, counted_adv_iterate]

theorem drop_init_range (T : Type) [Inhabited T] (k : Int) (R : List T) :
    drop_init (range_enumerator T) k R = R.drop k.toNat := by
  rw [drop_init]
  show List.tail^[k.toNat] R = R.drop k.toNat
  exact iterate_tail_eq_drop T k.toNat R

theorem to_vector_drop_range (T : Type) [Inhabited T] (l : List T) :
    to_vector (drop_enumerator (range_enumerator T)) l = l := by
  show to_vector (range_enumerator T) l = l
  exact to_vector_range T l

/-! ## Limit adapter: how far draining advances the parent -/

theorem drain_take_counted (T : Type) [Inhabited T] (k : Int) (R : List T)
    (n : Nat) (h1 : 1 ≤ k) (h2 : k ≤ (R.length : Int)) :
    drain_end (take_enumerator (counted_range_enumerator T)) ((R, n), k)
      = ((R.drop (k.toNat - 1), n + (k.toNat - 1)), 0) := by
  induction R generalizing k n with
  | nil => simp at h2; omega
  | cons a as ih =>
      have hmore : (take_enumerator (counted_range_enumerator T)).hasMore
          ((a :: as, n), k) = true := by
        simp [take_hasMore, counted_hasMore]; omega
      rw [drain_end_pos _ _ hmore, take_adv]
      by_cases hk1 : k - 1 > 0
      · rw [if_pos hk1, counted_adv]
        show drain_end (take_enumerator (counted_range_enumerator T))
            ((as, n + 1), k - 1) = _
        rw [ih (k - 1) (n + 1) (by omega) (by simp at h2 ⊢; omega)]
        have e1 : k.toNat - 1 = ((k - 1).toNat - 1) + 1 := by omega
        rw [e1, List.drop_succ_cons]
        have e2 : n + (((k - 1).toNat - 1) + 1) = n + 1 + ((k - 1).toNat - 1) := by
          omega
        rw [e2]
      · rw [if_neg hk1]
        have hk : k = 1 := by omega
        rw [drain_end_neg _ _ (by simp [take_hasMore, counted_hasMore]; omega)]
        have : k.toNat - 1 = 0 := by omega
        simp [this, hk]

/-! ## Take-until adapter: collected output -/

theorem to_vector_until_range (T : Type) [Inhabited T] (p : T → Bool)
    (R : List T) :
    to_vector (until_enumerator (range_enumerator T) p) R
      = R.takeWhile (fun x => !p x) := by
  induction R with
  | nil => exact to_vector_neg _ _ rfl
  | cons a as ih =>
      by_cases hp : p a = true
      · rw [to_vector_neg _ _
          (by simp [until_hasMore, range_hasMore, range_cur, hp])]
        simp [List.takeWhile_cons, hp]
      · rw [to_vector_pos _ _
          (by simp [until_hasMore, range_hasMore, range_cur, hp])]
        rw [until_cur, range_cur, until_adv,
          if_pos (by simp [range_hasMore, range_cur, hp]), range_adv]
        show a :: to_vector (until_enumerator (range_enumerator T) p) as = _
        rw [ih]
        simp [List.takeWhile_cons, hp]

/-! ## Filter adapter: catch-up loop, constructor, invariant, collection -/

theorem skip_fails_range (T : Type) [Inhabited T] (p : T → Bool) (l : List T) :
    skip_fails (range_enumerator T) p l = l.dropWhile (fun x => !p x) := by
  induction l with
  | nil => rw [skip_fails_neg (range_enumerator T) p [] rfl]; rfl
  | cons a as ih =>
      by_cases hp : p a = true
      · rw [skip_fails_neg _ _ _ (by simp [range_hasMore, range_cur, hp])]
        simp [List.dropWhile_cons, hp]
      · rw [skip_fails_pos _ _ _ (by simp [range_hasMore, range_cur, hp]),
          range_adv]
        show skip_fails (range_enumerator T) p as = _
        rw [ih]
        simp [List.dropWhile_cons, hp]

theorem where_init_range (T : Type) [Inhabited T] (p : T → Bool) (l : List T) :
    where_init (range_enumerator T) p l = l.dropWhile (fun x => !p x) := by
  cases l with
  | nil => rw [where_init, if_neg (by simp [range_hasMore])]; rfl
  | cons a as =>
      by_cases hp : p a = true
      · rw [where_init, if_neg (by simp [range_hasMore, range_cur, hp])]
        simp [List.dropWhile_cons, hp]
      · rw [where_init, if_pos (by simp [range_hasMore, range_cur, hp]),
          where_adv, range_adv]
        show skip_fails (range_enumerator T) p as = _
        rw [skip_fails_range]
        simp [List.dropWhile_cons, hp]

theorem to_vector_where_dropWhile (T : Type) [Inhabited T] (p : T → Bool)
    (l : List T) :
    to_vector (where_enumerator (range_enumerator T) p)
        (l.dropWhile (fun x => !p x)) = l.filter p := by
  induction l with
  | nil => exact to_vector_neg _ _ rfl
  | cons a as ih =>
      by_cases hp : p a = true
      · have hd : (a :: as).dropWhile (fun x => !p x) = a :: as := by
          simp [List.dropWhile_cons, hp]
        rw [hd, to_vector_pos _ _ (by simp [where_hasMore, range_hasMore]),
          where_cur, range_cur, where_adv, range_adv]
        show a :: to_vector (where_enumerator (range_enumerator T) p)
            (skip_fails (range_enumerator T) p as) = _
        rw [skip_fails_range, ih]
        simp [List.filter_cons, hp]
      · have hd : (a :: as).dropWhile (fun x => !p x)
            = as.dropWhile (fun x => !p x) := by
          simp [List.dropWhile_cons, hp]
        rw [hd, ih]
        simp [List.filter_cons, hp]

theorem skip_fails_invB (c : Enumerator σ T) (p : T → Bool) (s : σ) :
    where_invB c p (skip_fails c p s) = true := by
  rw [skip_fails]
  split
  · exact skip_fails_invB c p (c.adv s)
  · rename_i h
    by_cases hM : c.hasMore s = true
    · have hp : p (c.cur s) = true := by
        by_contra hq
        exact h (by simp_all)
      simp [where_invB, hp]
    · simp only [Bool.not_eq_true] at hM
      simp [where_invB, hM]
termination_by c.size s
decreasing_by exact c.size_adv s (by simp_all)

/-! ## Map adapter: collection commutes with the transformation -/

theorem to_vector_select (c : Enumerator σ T) (f : T → U) (s : σ) :
    to_vector (select_enumerator c f) s = (to_vector c s).map f := by
  by_cases h : c.hasMore s = true
  · rw [to_vector_pos c s h, to_vector_pos _ s (by simp [select_hasMore, h]),
      select_cur, select_adv, List.map_cons]
    rw [to_vector_select c f (c.adv s)]
  · have h' : c.hasMore s = false := by simpa using h
    rw [to_vector_neg c s h', to_vector_neg _ s (by simp [select_hasMore, h'])]
    rfl
termination_by c.size s
decreasing_by exact c.size_adv s h

/-! ## Sinks -/

theorem copy_to_write_list (c : Enumerator σ T) (s : σ) (dest : List T)
    (i : Nat) :
    copy_to c s dest i = write_list (to_vector c s) dest i := by
  by_cases h : c.hasMore s = true
  · rw [copy_to_pos _ _ _ _ h, to_vector_pos _ _ h]
    rw [copy_to_write_list c (c.adv s) (dest.set i (c.cur s)) (i + 1)]
    rfl
  · have h' : c.hasMore s = false := by simpa using h
    rw [copy_to_neg _ _ _ _ h', to_vector_neg _ _ h']
    rfl
termination_by c.size s
decreasing_by exact c.size_adv s h

theorem drain_end_exhausted (c : Enumerator σ T) (s : σ) :
    c.hasMore (drain_end c s) = false := by
  by_cases h : c.hasMore s = true
  · rw [drain_end_pos _ _ h]
    exact drain_end_exhausted c (c.adv s)
  · have h' : c.hasMore s = false := by simpa using h
    rw [drain_end_neg _ _ h']
    exact h'
termination_by c.size s
decreasing_by exact c.size_adv s h

theorem filter_eq_nil_of_all_false (p : T → Bool) (l : List T)
    (hall : ∀ x ∈ l, p x = false) : l.filter p = [] := by
  induction l with
  | nil => rfl
  | cons a as ih =>
      rw [List.filter_cons, if_neg (by simp [hall a (List.mem_cons_self a as)])]
      exact ih fun x hx => hall x (List.mem_cons_of_mem a hx)

/-! ## Claim theorems -/

/-- Claim C1: for every finite range `R` and predicate `P`, building the
filter (`where`) adapter over `R` — including its constructor's eager
catch-up — and collecting yields exactly the sub-sequence of `R`'s elements,
in order, for which `P` holds; in particular, when `P` is false for every
element the result is the empty sequence. -/
theorem where_collect_spec (T : Type) [Inhabited T] (p : T → Bool)
    (R : List T) :
    to_vector (where_enumerator (range_enumerator T) p)
        (where_init (range_enumerator T) p R) = R.filter p
    ∧ ((∀ x ∈ R, p x = false) →
        to_vector (where_enumerator (range_enumerator T) p)
          (where_init (range_enumerator T) p R) = []) := by
  have he : to_vector (where_enumerator (range_enumerator T) p)
      (where_init (range_enumerator T) p R) = R.filter p := by
    rw [where_init_range, to_vector_where_dropWhile]
  refine ⟨he, fun hall => ?_⟩
  rw [he]
  exact filter_eq_nil_of_all_false p R hall

/-- Witness for C1's conditional part at a concrete input. -/
theorem where_collect_spec_witness :
    (∀ x ∈ ([7, 8] : List Int), (fun _ => false) x = false)
    ∧ to_vector (where_enumerator (range_enumerator Int) (fun _ => false))
        (where_init (range_enumerator Int) (fun _ => false) [7, 8]) = [] :=
  ⟨by decide, (where_collect_spec Int (fun _ => false) [7, 8]).2 (by decide)⟩

/-- Claim C2: for every filter (`where`) adapter over any parent cursor, the
invariant "whenever the parent still has more elements, its current element
satisfies the keep-predicate" holds immediately after construction and after
every advance; and the adapter's `has_more` simply forwards to the parent. -/
theorem where_invariant_spec (c : Enumerator σ T) (p : T → Bool) (s : σ) :
    where_invB c p (where_init c p s) = true
    ∧ (∀ t : σ, where_invB c p ((where_enumerator c p).adv t) = true)
    ∧ (∀ t : σ, (where_enumerator c p).hasMore t = c.hasMore t) := by
  refine ⟨?_, fun t => ?_, fun t => rfl⟩
  · rw [where_init]
    split
    · rw [where_adv]
      exact skip_fails_invB c p (c.adv s)
    · rename_i h
      by_cases hM : c.hasMore s = true
      · have hp : p (c.cur s) = true := by
          by_contra hq
          exact h (by simp_all)
        simp [where_invB, hp]
      · simp only [Bool.not_eq_true] at hM
        simp [where_invB, hM]
  · rw [where_adv]
    exact skip_fails_invB c p (c.adv t)

/-- Counterexample to claim C3 as stated: constructing `drop(2)` over the
one-element range `[5]` advances the parent 2 times (the constructor's loop
has no exhaustion check), not `min 2 1 = 1` times. -/
theorem drop_init_count_cex :
    ¬ ((drop_init (counted_range_enumerator Int) 2 ([5], 0)).2
        = min 2 ([(5 : Int)].length)) := by
  rw [drop_init_counted]
  decide

/-- Claim C3, amended: constructing the skip (`drop`) adapter advances the
parent exactly `max(k, 0)` times — unconditionally, with no exhaustion
check, so an already-exhausted parent is still advanced; modelling a parent
advance past the end as a no-op, `skip(k).collect()` still equals `R` with
the first `min(k, |R|)` elements removed (empty when `k ≥ |R|`). -/
theorem drop_spec_amended (T : Type) [Inhabited T] (k : Int) (R : List T) :
    (drop_init (counted_range_enumerator T) k (R, 0)).2 = k.toNat
    ∧ to_vector (drop_enumerator (range_enumerator T))
        (drop_init (range_enumerator T) k R) = R.drop k.toNat := by
  constructor
  · rw [drop_init_counted]
    simp
  · rw [drop_init_range, to_vector_drop_range]

/-- Claim C4: `take(k).collect()` equals the first `min(k, |R|)` elements of
`R` in order and has length `min(k, |R|)`; the adapter constructed with
count 0 is immediately exhausted whatever the parent's state. -/
theorem take_collect_spec (T : Type) [Inhabited T] (k : Int) (R : List T) :
    to_vector (take_enumerator (range_enumerator T)) (R, k) = R.take k.toNat
    ∧ (to_vector (take_enumerator (range_enumerator T)) (R, k)).length
        = min k.toNat R.length
    ∧ (∀ (σ' U : Type) (c : Enumerator σ' U) (s : σ'),
        (take_enumerator c).hasMore (s, 0) = false) := by
  refine ⟨to_vector_take_range T k R, ?_, ?_⟩
  · rw [to_vector_take_range]
    exact List.length_take _ _
  · intro σ' U c s
    simp [take_hasMore]

/-- Claim C5: the limit (`take`) adapter's advance decrements the count and
forwards to the parent only when the count is still positive after the
decrement; consequently, draining `take(k)` over a parent with at least `k`
elements (`k ≥ 1`) advances the parent exactly `k - 1` times, leaving the
element one past the limit unpulled (the parent is left non-exhausted). -/
theorem take_drain_frame_spec (T : Type) [Inhabited T] (k : Int) (R : List T)
    (h1 : 1 ≤ k) (h2 : k ≤ (R.length : Int)) :
    ((drain_end (take_enumerator (counted_range_enumerator T))
        ((R, 0), k)).1).2 = k.toNat - 1
    ∧ ((drain_end (take_enumerator (counted_range_enumerator T))
        ((R, 0), k)).1).1 = R.drop (k.toNat - 1)
    ∧ ((drain_end (take_enumerator (counted_range_enumerator T))
        ((R, 0), k)).1).1 ≠ []
    ∧ (∀ (σ' U : Type) (c : Enumerator σ' U) (s : σ') (l : Int),
        (take_enumerator c).adv (s, l)
          = (if l - 1 > 0 then c.adv s else s, l - 1)) := by
  have hd := drain_take_counted T k R 0 h1 h2
  refine ⟨?_, ?_, ?_, fun σ' U c s l => rfl⟩
  · rw [hd]
    simp
  · rw [hd]
  · rw [hd]
    have hlen : 0 < (R.drop (k.toNat - 1)).length := by
      rw [List.length_drop]
      omega
    exact List.length_pos.mp hlen

/-- Witness for C5 at `k = 2` over the range `[10, 20, 30]`. -/
theorem take_drain_frame_spec_witness :
    (1 ≤ (2 : Int)) ∧ ((2 : Int) ≤ (([10, 20, 30] : List Int).length : Int))
    ∧ ((drain_end (take_enumerator (counted_range_enumerator Int))
        (([10, 20, 30], 0), 2)).1).2 = (2 : Int).toNat - 1 :=
  ⟨by decide, by decide,
    (take_drain_frame_spec Int 2 [10, 20, 30] (by decide) (by decide)).1⟩

/-- Claim C6: `until(P).collect()` equals the longest prefix of `R` none of
whose elements satisfy `P`; the stopping element is never exposed, the
result is empty when `P` holds for `R`'s first element, and the result is
all of `R` when `P` holds for no element. -/
theorem until_collect_spec (T : Type) [Inhabited T] (p : T → Bool)
    (R : List T) :
    to_vector (until_enumerator (range_enumerator T) p) R
        = R.takeWhile (fun x => !p x)
    ∧ (∀ (a : T) (as : List T), R = a :: as → p a = true →
        to_vector (until_enumerator (range_enumerator T) p) R = [])
    ∧ ((∀ x ∈ R, p x = false) →
        to_vector (until_enumerator (range_enumerator T) p) R = R) := by
  refine ⟨to_vector_until_range T p R, ?_, ?_⟩
  · intro a as hR hp
    rw [to_vector_until_range, hR]
    simp [List.takeWhile_cons, hp]
  · intro hall
    rw [to_vector_until_range]
    refine List.takeWhile_eq_self_iff.mpr ?_
    intro x hx
    simp [hall x hx]

/-- Witness for C6's conditional parts at concrete inputs. -/
theorem until_collect_spec_witness :
    ((fun x => decide (x = (2 : Int))) 2 = true)
    ∧ to_vector (until_enumerator (range_enumerator Int)
        (fun x => decide (x = (2 : Int)))) [2, 9] = [] :=
  ⟨by decide,
    (until_collect_spec Int (fun x => decide (x = (2 : Int))) [2, 9]).2.1
      2 [9] rfl (by decide)⟩

/-- Claim C7: the take-until adapter's advance forwards to the parent only
if the adapter's `has_more` was true beforehand; once `has_more` is false
(stop condition detected or parent exhausted), any number of further
advances leaves the adapter's state — hence the parent's state — unchanged. -/
theorem until_adv_frame_spec (c : Enumerator σ T) (p : T → Bool) (s : σ) :
    ((until_enumerator c p).adv s
        = if (until_enumerator c p).hasMore s = true then c.adv s else s)
    ∧ ((until_enumerator c p).hasMore s = false →
        ∀ n : Nat, ((until_enumerator c p).adv)^[n] s = s) := by
  constructor
  · rfl
  · intro h n
    induction n with
    | zero => rfl
    | succ m ih =>
        rw [Function.iterate_succ_apply]
        have hadv : (until_enumerator c p).adv s = s := by
          rw [until_adv, if_neg (by rw [until_hasMore] at h; simp [h])]
        rw [hadv, ih]

/-- Witness for C7: a stopped take-until adapter over an instrumented parent
absorbs three further advances without reaching the parent. -/
theorem until_adv_frame_spec_witness :
    ((until_enumerator (counted_range_enumerator Int)
        (fun x => decide (x = 4))).hasMore ([4], 0) = false)
    ∧ ((until_enumerator (counted_range_enumerator Int)
        (fun x => decide (x = 4))).adv)^[3] ([4], 0) = ([4], 0) :=
  ⟨by decide,
    (until_adv_frame_spec (counted_range_enumerator Int)
      (fun x => decide (x = 4)) ([4], 0)).2 (by decide) 3⟩

/-- Claim C8: collecting through `map(f)` equals applying `f` element-wise
to the collection of the unmapped pipeline, and collecting through
`map(f).map(g)` equals collecting through the single adapter
`map(compose(g, f))`. -/
theorem select_functor_spec (c : Enumerator σ T) (f : T → U) (g : U → V)
    (s : σ) :
    to_vector (select_enumerator c f) s = (to_vector c s).map f
    ∧ to_vector (select_enumerator (select_enumerator c f) g) s
        = to_vector (select_enumerator c (fun x => g (f x))) s :=
  ⟨to_vector_select c f s, rfl⟩

/-- Claim C9: `copy_to` writes, one element per output position in order,
exactly the sequence `to_vector` returns on the same pipeline state; the
sink's drain loop ends exactly at exhaustion; and either sink applied to an
already-exhausted pipeline is a no-op yielding an empty result. -/
theorem sinks_equiv_spec (c : Enumerator σ T) (s : σ) (dest : List T)
    (i : Nat) :
    copy_to c s dest i = write_list (to_vector c s) dest i
    ∧ c.hasMore (drain_end c s) = false
    ∧ (c.hasMore s = false →
        copy_to c s dest i = dest ∧ to_vector c s = []) := by
  refine ⟨copy_to_write_list c s dest i, drain_end_exhausted c s, fun h => ?_⟩
  exact ⟨copy_to_neg c s dest i h, to_vector_neg c s h⟩

/-- Witness for C9's exhausted-pipeline part at a concrete input. -/
theorem sinks_equiv_spec_witness :
    ((range_enumerator Int).hasMore [] = false)
    ∧ copy_to (range_enumerator Int) [] [9, 9] 0 = [9, 9] :=
  ⟨by decide,
    ((sinks_equiv_spec (range_enumerator Int) [] [9, 9] 0).2.2 (by decide)).1⟩

/-- Claim C10: negative counts are treated as zero: for `n < 0`,
constructing `skip(n)` advances the parent zero times and leaves the same
state as `skip(0)`, while `take(n)` is immediately exhausted and collects
the empty sequence, the same as `take(0)`. -/
theorem negative_count_spec (T : Type) [Inhabited T] (n : Int) (R : List T)
    (hn : n < 0) :
    (drop_init (counted_range_enumerator T) n (R, 0)).2 = 0
    ∧ drop_init (range_enumerator T) n R = drop_init (range_enumerator T) 0 R
    ∧ (take_enumerator (range_enumerator T)).hasMore (R, n) = false
    ∧ to_vector (take_enumerator (range_enumerator T)) (R, n) = []
    ∧ to_vector (take_enumerator (range_enumerator T)) (R, 0) = [] := by
  have h0 : n.toNat = 0 := by omega
  refine ⟨?_, ?_, ?_, ?_, ?_⟩
  · rw [drop_init_counted]
    simp [h0]
  · rw [drop_init_range, drop_init_range]
    simp [h0]
  · simp only [take_hasMore]
    rw [decide_eq_false (by omega), Bool.and_false]
  · refine to_vector_neg _ _ ?_
    simp only [take_hasMore]
    rw [decide_eq_false (by omega), Bool.and_false]
  · refine to_vector_neg _ _ ?_
    simp [take_hasMore]

/-- Witness for C10 at `n = -1` over the range `[3]`. -/
theorem negative_count_spec_witness :
    ((-1 : Int) < 0)
    ∧ to_vector (take_enumerator (range_enumerator Int)) ([3], -1) = []
    ∧ (drop_init (counted_range_enumerator Int) (-1) ([3], 0)).2 = 0 :=
  ⟨by decide, (negative_count_spec Int (-1) [3] (by decide)).2.2.2.1,
    (negative_count_spec Int (-1) [3] (by decide)).1⟩

end Linq
